import Mathlib

/-!
Verification of src/fix-curseforge.py against its specification.

The development shallowly embeds the program:
* a JSON value type with decidable equality (CPython compares dicts and
  lists structurally; JSON numbers that occur as projectID values are
  integers per the spec data model);
* the default transform modify_manifest (lines 40-47), modelled literally:
  CPython iterates the live list with an advancing cursor while
  list.remove deletes the first element equal to its argument, and the
  f-string on line 44 indexes file["projectID"], which would raise
  KeyError if the key were absent, hence the Except result;
* rezip_directory (lines 28-37) as a walk over a directory tree;
* main (lines 50-111) as a state-passing function over an association-list
  filesystem together with oracles for the failure points the code guards
  with try/except.
-/

/-- JSON values as CPython's json module produces them.  Numbers are
modelled as integers: the spec's data model declares projectID an integer
and no claim involves floats. -/
inductive Json where
  | null
  | bool (b : Bool)
  | num (n : Int)
  | str (s : String)
  | arr (elems : List Json)
  | obj (fields : List (String × Json))

mutual

/-- Structural equality of JSON values, modelling CPython's == on the
values json.load builds (dict keys keep insertion order; the manifests
this tool rewrites never hold two permuted-but-equal dicts, so comparing
object fields pointwise in order is faithful here). -/
def Json.eqb : Json → Json → Bool
  | .null, .null => true
  | .bool a, .bool b => a == b
  | .num a, .num b => a == b
  | .str a, .str b => a == b
  | .arr a, .arr b => Json.eqbList a b
  | .obj a, .obj b => Json.eqbObj a b
  | _, _ => false

/-- Pointwise equality of JSON arrays. -/
def Json.eqbList : List Json → List Json → Bool
  | [], [] => true
  | x :: xs, y :: ys => Json.eqb x y && Json.eqbList xs ys
  | _, _ => false

/-- Pointwise equality of JSON object field lists. -/
def Json.eqbObj : List (String × Json) → List (String × Json) → Bool
  | [], [] => true
  | (k, v) :: xs, (k', v') :: ys => k == k' && Json.eqb v v' && Json.eqbObj xs ys
  | _, _ => false

end

theorem Json.eqb_iff : ∀ a b, (Json.eqb a b = true ↔ a = b) := by
  apply Json.eqb.induct
    (fun a b => (Json.eqb a b = true ↔ a = b))
    (fun a b => (Json.eqbObj a b = true ↔ a = b))
    (fun a b => (Json.eqbList a b = true ↔ a = b))
  case case7 =>
    intro t x h1 h2 h3 h4 h5 h6
    cases t <;> cases x <;> simp_all [Json.eqb]
  case case10 =>
    intro t x h1 h2
    cases t with
    | nil =>
      cases x with
      | nil => exact (h1 rfl rfl).elim
      | cons y ys => simp [Json.eqbList]
    | cons a as =>
      cases x with
      | nil => simp [Json.eqbList]
      | cons y ys => exact (h2 a as y ys rfl rfl).elim
  case case13 =>
    intro t x h1 h2
    cases t with
    | nil =>
      cases x with
      | nil => exact (h1 rfl rfl).elim
      | cons y ys => simp [Json.eqbObj]
    | cons a as =>
      cases x with
      | nil => simp [Json.eqbObj]
      | cons y ys => exact (h2 a.1 a.2 as y.1 y.2 ys rfl rfl).elim
  all_goals intros
  all_goals simp_all [Json.eqb, Json.eqbList, Json.eqbObj]

instance : DecidableEq Json := fun a b => decidable_of_iff _ (Json.eqb_iff a b)

/-- A manifest "files" entry: a JSON object, i.e. an ordered field list. -/
abbrev Entry := List (String × Json)

/-- dict.get on an entry: the value at key k, or none (Python None). -/
def getKey (k : String) : Entry → Option Json
  | [] => none
  | (k', v) :: rest => if k' = k then some v else getKey k rest

/-- PROJECTS_TO_REMOVE (line 24): the fixed denylist. -/
def PROJECTS_TO_REMOVE : List Int := [890127, 889079, 406463]

/-- The test on line 43: file.get("projectID") in deny.  A missing key
yields Python None, and None is never equal to an int, so the test is
false; likewise any non-integer value. -/
def denies (deny : List Int) (e : Entry) : Bool :=
  match getKey "projectID" e with
  | some (.num n) => n ∈ deny
  | _ => false

/-- Lines 42-45, transliterated.  CPython executes
for file in manifest["files"]: keeping a cursor i into the live list;
each iteration reads the element at i, runs the body, then advances i;
the loop ends when i reaches the current length.
list.remove(file) deletes the first element equal to file.
The f-string on line 44 indexes file["projectID"], which raises KeyError
when the key is absent, so the body is fallible.
fuel bounds the number of iterations; since the cursor advances by one
per iteration and the list never grows, fuel = initial length is exact
(see pyForRemove_eq_iterRemove). -/
def pyForRemove (deny : List Int) : Nat → Nat → List Entry → Except String (List Entry)
  | 0, _, l => .ok l
  | fuel + 1, i, l =>
    if h : i < l.length then
      let x := l.get ⟨i, h⟩
      if denies deny x then
        match getKey "projectID" x with
        | none => .error "KeyError: projectID"
        | some _ => pyForRemove deny fuel (i + 1) (l.erase x)
      else pyForRemove deny fuel (i + 1) l
    else .ok l

/-- The loop of lines 42-45 run on a whole files list. -/
def pyModifyFiles (deny : List Int) (files : List Entry) : Except String (List Entry) :=
  pyForRemove deny files.length 0 files

/-- A manifest document: the "files" field (a list of entry objects) that
lines 42-45 mutate, plus every other top-level field, which the function
never touches. -/
structure Manifest where
  files : List Entry
  rest : List (String × Json)
deriving DecidableEq

/-- modify_manifest (lines 40-47): runs the removal loop on
manifest["files"] in place and returns the same (mutated) document. -/
def modify_manifest (m : Manifest) : Except String Manifest :=
  (pyModifyFiles PROJECTS_TO_REMOVE m.files).map (fun fs => { m with files := fs })

/-- The cursor semantics of the loop in two-zone form: A is the part of
the live list strictly before the cursor, R the part at and after it.
Reading the element x at the cursor and calling list.remove(x) deletes
the first element equal to x - inside A if an equal duplicate survived
there, else x itself - after which the cursor advance skips over the
element that slid into the vacated position.  Proved equal to the literal
model by pyForRemove_eq_iterRemove. -/
def iterRemove (deny : List Int) : List Entry → List Entry → List Entry
  | A, [] => A
  | A, x :: B =>
    if denies deny x then
      let A' := if x ∈ A then A.erase x ++ [x] else A
      match B with
      | [] => A'
      | b :: B' => iterRemove deny (A' ++ [b]) B'
    else iterRemove deny (A ++ [x]) B

/-- The pure value computed by modify_manifest (the loop never raises,
see pyForRemove_eq_iterRemove and modify_manifest_ok). -/
def modifyManifestFn (m : Manifest) : Manifest :=
  { m with files := iterRemove PROJECTS_TO_REMOVE [] m.files }

theorem pyForRemove_done (deny : List Int) (fuel i : Nat) (l : List Entry)
    (h : l.length ≤ i) : pyForRemove deny fuel i l = .ok l := by
  cases fuel with
  | zero => rfl
  | succ n => simp [pyForRemove, Nat.not_lt.mpr h]

theorem denies_getKey {deny : List Int} {x : Entry} (h : denies deny x = true) :
    ∃ n, getKey "projectID" x = some (.num n) ∧ n ∈ deny := by
  unfold denies at h
  rcases hg : getKey "projectID" x with _ | v
  · rw [hg] at h; simp at h
  · rw [hg] at h
    cases v <;> simp_all

theorem denies_congr {deny : List Int} {x y : Entry} (h : x = y) :
    denies deny x = denies deny y := by rw [h]

theorem pyForRemove_step_hit (deny : List Int) (n i : Nat) (l : List Entry)
    (h : i < l.length) (hd : denies deny (l.get ⟨i, h⟩) = true)
    (v : Json) (hk : getKey "projectID" (l.get ⟨i, h⟩) = some v) :
    pyForRemove deny (n + 1) i l = pyForRemove deny n (i + 1) (l.erase (l.get ⟨i, h⟩)) := by
  rw [pyForRemove]
  simp only [dif_pos h, hd, if_true, hk]

theorem pyForRemove_step_skip (deny : List Int) (n i : Nat) (l : List Entry)
    (h : i < l.length) (hd : denies deny (l.get ⟨i, h⟩) = false) :
    pyForRemove deny (n + 1) i l = pyForRemove deny n (i + 1) l := by
  rw [pyForRemove]
  simp only [dif_pos h, hd, if_false, Bool.false_eq_true]

theorem pyForRemove_eq_iterRemove (deny : List Int) :
    ∀ fuel (A R : List Entry), R.length ≤ fuel →
      pyForRemove deny fuel A.length (A ++ R) = .ok (iterRemove deny A R) := by
  intro fuel
  induction fuel with
  | zero =>
    intro A R hR
    have : R = [] := List.length_eq_zero.mp (Nat.le_zero.mp hR)
    subst this
    simp [pyForRemove, iterRemove]
  | succ n ih =>
    intro A R hR
    cases R with
    | nil =>
      have hlt : ¬ A.length < (A ++ ([] : List Entry)).length := by simp
      simp [pyForRemove, hlt, iterRemove]
    | cons x B =>
      have hlt : A.length < (A ++ x :: B).length := by simp
      have hget : (A ++ x :: B).get ⟨A.length, hlt⟩ = x := by
        simp [List.get_eq_getElem, List.getElem_append_right]
      by_cases hd : denies deny x = true
      · -- the element matches the denylist: the body removes it
        rcases denies_getKey hd with ⟨pid, hk, _⟩
        rw [pyForRemove_step_hit deny n A.length (A ++ x :: B) hlt
              (by rw [hget]; exact hd) (.num pid) (by rw [hget]; exact hk), hget]
        by_cases hmem : x ∈ A
        · -- an equal duplicate survived before the cursor: remove hits that one
          have herase : (A ++ x :: B).erase x = A.erase x ++ x :: B :=
            List.erase_append_left _ hmem
          have hApos : 0 < A.length := List.length_pos_of_mem hmem
          have hAlen : (A.erase x).length = A.length - 1 := List.length_erase_of_mem hmem
          rw [herase]
          cases B with
          | nil =>
            have hlen : (A.erase x ++ x :: ([] : List Entry)).length ≤ A.length + 1 := by
              simp [hAlen]; try omega
            rw [pyForRemove_done deny n (A.length + 1) _ hlen]
            have hiter : iterRemove deny A [x] = A.erase x ++ [x] := by
              rw [iterRemove]; simp [hd, hmem]
            rw [hiter]
          | cons b B' =>
            have hlen : A.length + 1 = (A.erase x ++ [x, b]).length := by
              simp [hAlen]; try omega
            have hsplit : A.erase x ++ x :: b :: B' = (A.erase x ++ [x, b]) ++ B' := by
              simp
            have hB' : B'.length ≤ n := by simp at hR; omega
            rw [hsplit, hlen, ih _ B' hB']
            have hiter : iterRemove deny A (x :: b :: B')
                = iterRemove deny ((A.erase x ++ [x]) ++ [b]) B' := by
              conv_lhs => rw [iterRemove]
              simp [hd, hmem]
            rw [hiter]
            simp
        · -- no duplicate before the cursor: remove deletes the element itself
          have herase : (A ++ x :: B).erase x = A ++ B := by
            rw [List.erase_append_right _ hmem]
            simp [List.erase_cons_head]
          rw [herase]
          cases B with
          | nil =>
            rw [show A ++ ([] : List Entry) = A from by simp]
            rw [pyForRemove_done deny n (A.length + 1) _ (by omega)]
            have hiter : iterRemove deny A [x] = A := by
              rw [iterRemove]; simp [hd, hmem]
            rw [hiter]
          | cons b B' =>
            have hlen : A.length + 1 = (A ++ [b]).length := by simp
            have hsplit : A ++ b :: B' = (A ++ [b]) ++ B' := by simp
            have hB' : B'.length ≤ n := by simp at hR; omega
            rw [hsplit, hlen, ih _ B' hB']
            have hiter : iterRemove deny A (x :: b :: B')
                = iterRemove deny (A ++ [b]) B' := by
              conv_lhs => rw [iterRemove]
              simp [hd, hmem]
            rw [hiter]
      · -- the element does not match: the loop just advances the cursor
        rw [pyForRemove_step_skip deny n A.length (A ++ x :: B) hlt
              (by rw [hget]; simpa using hd)]
        have hiter : iterRemove deny A (x :: B) = iterRemove deny (A ++ [x]) B := by
          conv_lhs => rw [iterRemove]
          simp [hd]
        rw [hiter]
        have hstep : A ++ x :: B = (A ++ [x]) ++ B := by simp
        have hlen : A.length + 1 = (A ++ [x]).length := by simp
        have hB : B.length ≤ n := by simp at hR; omega
        rw [hstep, hlen, ih _ B hB]

theorem pyModifyFiles_eq (deny : List Int) (files : List Entry) :
    pyModifyFiles deny files = .ok (iterRemove deny [] files) := by
  have := pyForRemove_eq_iterRemove deny files.length [] files (le_refl _)
  simpa [pyModifyFiles] using this

theorem modify_manifest_ok (m : Manifest) :
    modify_manifest m = .ok (modifyManifestFn m) := by
  simp [modify_manifest, pyModifyFiles_eq, Except.map, modifyManifestFn]

theorem filter_erase (q : Entry → Bool) (x : Entry) (hq : q x = false) :
    ∀ l : List Entry, (l.erase x).filter q = l.filter q := by
  intro l
  induction l with
  | nil => rfl
  | cons y ys ih =>
    rw [List.erase_cons]
    by_cases hyx : y = x
    · subst hyx
      simp [List.filter_cons, hq]
    · rw [if_neg (by simp [hyx])]
      simp [List.filter_cons, ih]

/-- Every element the loop ever deletes is denylisted, so filtering by any
predicate that is false on denylisted entries commutes with the loop:
the entries it keeps are exactly the input's, unchanged and in order. -/
theorem iterRemove_filter (deny : List Int) (q : Entry → Bool)
    (hq : ∀ e, denies deny e = true → q e = false) :
    ∀ A R, (iterRemove deny A R).filter q = (A ++ R).filter q := by
  intro A R
  induction A, R using iterRemove.induct deny with
  | case1 A => simp [iterRemove]
  | case2 A x hd =>
    rw [iterRemove]
    simp only [hd, if_true]
    by_cases hm : x ∈ A
    · rw [if_pos hm]
      simp [List.filter_append, filter_erase q x (hq x hd)]
    · rw [if_neg hm]
      simp [List.filter_append, hq x hd]
  | case3 A x hd A' b B' ih =>
    conv_lhs => rw [iterRemove]
    simp only [hd, if_true]
    unfold A' at ih
    by_cases hm : x ∈ A
    · simp only [hm, if_true] at ih ⊢
      rw [ih]
      simp [List.filter_append, filter_erase q x (hq x hd), hq x hd]
    · simp only [hm, if_false] at ih ⊢
      rw [ih]
      simp [List.filter_append, hq x hd]
  | case4 A x B hd ih =>
    conv_lhs => rw [iterRemove]
    rw [if_neg hd]
    cases B with
    | nil => simpa using ih
    | cons c C =>
      rw [ih]
      simp

/-- The loop only ever deletes elements: its result is a sublist of the
live list, so every surviving entry is an input entry, unchanged, and the
surviving entries keep their original relative order. -/
theorem iterRemove_sublist (deny : List Int) :
    ∀ A R, (iterRemove deny A R).Sublist (A ++ R) := by
  intro A R
  induction A, R using iterRemove.induct deny with
  | case1 A => simp [iterRemove]
  | case2 A x hd =>
    rw [iterRemove]
    simp only [hd, if_true]
    by_cases hm : x ∈ A
    · simp only [hm, if_true]
      exact (List.erase_sublist x A).append (List.Sublist.refl [x])
    · simp only [hm, if_false]
      exact List.sublist_append_left A [x]
  | case3 A x hd A' b B' ih =>
    conv_lhs => rw [iterRemove]
    simp only [hd, if_true]
    unfold A' at ih
    by_cases hm : x ∈ A
    · simp only [hm, if_true] at ih ⊢
      refine ih.trans ?_
      have h1 : A.erase x ++ [x] ++ [b] ++ B' = A.erase x ++ (x :: b :: B') := by simp
      have h2 : A ++ x :: b :: B' = A ++ (x :: b :: B') := rfl
      rw [h1, h2]
      exact (List.erase_sublist x A).append (List.Sublist.refl _)
    · simp only [hm, if_false] at ih ⊢
      refine ih.trans ?_
      have h1 : A ++ [b] ++ B' = A ++ (b :: B') := by simp
      rw [h1]
      exact (List.Sublist.refl A).append (List.sublist_cons_self x (b :: B'))
  | case4 A x B hd ih =>
    conv_lhs => rw [iterRemove]
    rw [if_neg hd]
    refine ih.trans ?_
    simp

/-- No two adjacent entries of the list are both denylisted. -/
def noAdjacentDenied (deny : List Int) : List Entry → Bool
  | [] => true
  | [_] => true
  | a :: b :: r => (!(denies deny a && denies deny b)) && noAdjacentDenied deny (b :: r)

theorem noAdjacentDenied_tail {deny : List Int} {a : Entry} {r : List Entry}
    (h : noAdjacentDenied deny (a :: r) = true) : noAdjacentDenied deny r = true := by
  cases r with
  | nil => rfl
  | cons b s => simp [noAdjacentDenied] at h ⊢; exact h.2

/-- When no two adjacent input entries are both denylisted, the single
element skipped after each removal is never itself denylisted, so the
loop removes every denylisted entry. -/
theorem iterRemove_no_denied (deny : List Int) :
    ∀ A R, (∀ e ∈ A, denies deny e = false) → noAdjacentDenied deny R = true →
      ∀ e ∈ iterRemove deny A R, denies deny e = false := by
  intro A R
  induction A, R using iterRemove.induct deny with
  | case1 A =>
    intro hA _ e he
    rw [iterRemove] at he
    exact hA e he
  | case2 A x hd =>
    intro hA _ e he
    rw [iterRemove] at he
    simp only [hd, if_true] at he
    have hm : x ∉ A := fun hx => by
      have := hA x hx
      rw [hd] at this
      exact Bool.true_eq_false.mp this
    simp only [hm, if_false] at he
    exact hA e he
  | case3 A x hd A' b B' ih =>
    intro hA hR e he
    conv at he => rw [iterRemove]
    simp only [hd, if_true] at he
    unfold A' at ih
    have hm : x ∉ A := fun hx => by
      have := hA x hx
      rw [hd] at this
      exact Bool.true_eq_false.mp this
    simp only [hm, if_false] at ih he
    have hb : denies deny b = false := by
      simp [noAdjacentDenied, hd] at hR
      simpa using hR.1
    have hR' : noAdjacentDenied deny B' = true :=
      noAdjacentDenied_tail (noAdjacentDenied_tail hR)
    refine ih ?_ hR' e he
    intro f hf
    rcases List.mem_append.mp hf with hfa | hfb
    · exact hA f hfa
    · rw [List.mem_singleton.mp hfb]
      exact hb
  | case4 A x B hd ih =>
    intro hA hR e he
    conv at he => rw [iterRemove]
    rw [if_neg hd] at he
    refine ih ?_ (noAdjacentDenied_tail hR) e he
    intro f hf
    rcases List.mem_append.mp hf with hfa | hfb
    · exact hA f hfa
    · rw [List.mem_singleton.mp hfb]
      exact Bool.not_eq_true _ ▸ Bool.of_not_eq_true hd

/-- On a list with no denylisted entries the loop is the identity. -/
theorem iterRemove_id (deny : List Int) :
    ∀ A R, (∀ e ∈ R, denies deny e = false) → iterRemove deny A R = A ++ R := by
  intro A R
  induction A, R using iterRemove.induct deny with
  | case1 A => intro _; simp [iterRemove]
  | case2 A x hd =>
    intro hR
    have := hR x (by simp)
    rw [hd] at this
    exact (Bool.true_eq_false.mp this).elim
  | case3 A x hd A' b B' ih =>
    intro hR
    have := hR x (by simp)
    rw [hd] at this
    exact (Bool.true_eq_false.mp this).elim
  | case4 A x B hd ih =>
    intro hR
    conv_lhs => rw [iterRemove]
    rw [if_neg hd]
    rw [ih (fun e he => hR e (List.mem_cons_of_mem x he))]
    simp

/-- An entry whose projectID 890127 is on the fixed denylist. -/
def entry890 : Entry := [("projectID", .num 890127)]

/-- An entry with projectID 1 (used with the denylist containing 1). -/
def entry1 : Entry := [("projectID", .num 1)]

/-- An entry with projectID 2, not on any denylist used here. -/
def entry2 : Entry := [("projectID", .num 2)]

/-- Claim C1 is false on the code: removing while iterating the live list
skips the element after each removal, so adjacent duplicate matches
survive.  On files = entry890, entry890, entry2 with the fixed denylist,
modify_manifest leaves the second entry890 in place, a remaining entry
whose projectID is denylisted; and on the spec's own regression input
(projectID 1 twice then 2, denylist containing 1) the result keeps the
second projectID-1 entry instead of being exactly the projectID-2 entry. -/
theorem claim1_counterexample :
    modify_manifest ⟨[entry890, entry890, entry2], []⟩
        = .ok ⟨[entry890, entry2], []⟩
      ∧ denies PROJECTS_TO_REMOVE entry890 = true
      ∧ pyModifyFiles [1] [entry1, entry1, entry2] = .ok [entry1, entry2]
      ∧ [entry1, entry2] ≠ [entry2] :=
  ⟨rfl, rfl, rfl, by decide⟩

/-- Claim C1 (amended): if no two adjacent entries of files are both
denylisted, then after the transform no remaining entry has a denylisted
projectID - stated for the literal loop under any denylist and for
modify_manifest under the fixed denylist; and on the duplicate-adjacency
regression input the loop removes only the first of the two adjacent
matching entries, yielding the projectID-1 entry followed by the
projectID-2 entry. -/
theorem claim1_amended :
    (∀ (deny : List Int) (files out : List Entry),
        noAdjacentDenied deny files = true →
        pyModifyFiles deny files = .ok out →
        ∀ e ∈ out, denies deny e = false)
      ∧ (∀ (m m₂ : Manifest),
          noAdjacentDenied PROJECTS_TO_REMOVE m.files = true →
          modify_manifest m = .ok m₂ →
          ∀ e ∈ m₂.files, denies PROJECTS_TO_REMOVE e = false)
      ∧ pyModifyFiles [1] [entry1, entry1, entry2] = .ok [entry1, entry2] := by
  refine ⟨?_, ?_, rfl⟩
  · intro deny files out hadj hok
    rw [pyModifyFiles_eq] at hok
    have : out = iterRemove deny [] files := by
      simpa using hok.symm
    subst this
    exact iterRemove_no_denied deny [] files (by intro e he; simp at he) hadj
  · intro m m₂ hadj hok
    rw [modify_manifest_ok] at hok
    have : m₂ = modifyManifestFn m := by
      simpa using hok.symm
    subst this
    exact iterRemove_no_denied PROJECTS_TO_REMOVE [] m.files
      (by intro e he; simp at he) hadj

/-- Witness for claim1_amended at a concrete input: on files =
entry890, entry2 (no adjacent matches) the surviving entry2 is not
denylisted. -/
theorem claim1_witness :
    denies [890127] entry2 = false :=
  claim1_amended.1 [890127] [entry890, entry2] [entry2] (by decide) rfl
    entry2 (List.mem_singleton.mpr rfl)

/-- Claim C5: entries whose projectID is not denylisted survive
modify_manifest unchanged and in their original relative order - the
result is a sublist of the input (each kept entry is an input entry, in
input order) whose non-denylisted entries are exactly those of the input. -/
theorem claim5_kept_entries :
    ∀ m : Manifest, ∃ m₂, modify_manifest m = .ok m₂
      ∧ m₂.files.Sublist m.files
      ∧ m₂.files.filter (fun e => !denies PROJECTS_TO_REMOVE e)
          = m.files.filter (fun e => !denies PROJECTS_TO_REMOVE e) := by
  intro m
  refine ⟨modifyManifestFn m, modify_manifest_ok m, ?_, ?_⟩
  · simpa [modifyManifestFn] using
      iterRemove_sublist PROJECTS_TO_REMOVE [] m.files
  · have hq : ∀ e, denies PROJECTS_TO_REMOVE e = true →
        (!denies PROJECTS_TO_REMOVE e) = false := by
      intro e he; simp [he]
    simpa [modifyManifestFn] using
      iterRemove_filter PROJECTS_TO_REMOVE _ hq [] m.files

/-- Claim C6: modify_manifest is the identity on an already-filtered
manifest (one in which no files entry has a denylisted projectID). -/
theorem claim6_idempotent (m : Manifest)
    (h : ∀ e ∈ m.files, denies PROJECTS_TO_REMOVE e = false) :
    modify_manifest m = .ok m := by
  rw [modify_manifest_ok]
  have : modifyManifestFn m = m := by
    unfold modifyManifestFn
    rw [iterRemove_id PROJECTS_TO_REMOVE [] m.files h]
    simp
  rw [this]

/-- Witness for claim6_idempotent: a concrete already-filtered manifest
is returned unchanged. -/
theorem claim6_witness :
    modify_manifest ⟨[entry2], [("name", .str "GameNight")]⟩
      = .ok ⟨[entry2], [("name", .str "GameNight")]⟩ :=
  claim6_idempotent ⟨[entry2], [("name", .str "GameNight")]⟩ (by decide)

/-- Claim C7: modify_manifest touches only the files field; every other
top-level field of the document is returned unchanged. -/
theorem claim7_frame :
    ∀ m : Manifest, ∃ m₂, modify_manifest m = .ok m₂ ∧ m₂.rest = m.rest :=
  fun m => ⟨modifyManifestFn m, modify_manifest_ok m, rfl⟩

/-- Claim C10: the transform never raises on an entry lacking projectID -
dict.get returns the None sentinel, which is never in the integer
denylist, so modify_manifest always returns a document (never the
KeyError outcome) and every projectID-less entry is retained unchanged,
in order. -/
theorem claim10_missing_key_safe :
    ∀ m : Manifest, ∃ m₂, modify_manifest m = .ok m₂
      ∧ m₂.files.filter (fun e => (getKey "projectID" e).isNone)
          = m.files.filter (fun e => (getKey "projectID" e).isNone) := by
  intro m
  refine ⟨modifyManifestFn m, modify_manifest_ok m, ?_⟩
  have hq : ∀ e, denies PROJECTS_TO_REMOVE e = true →
      ((getKey "projectID" e).isNone) = false := by
    intro e he
    rcases denies_getKey he with ⟨n, hk, _⟩
    simp [hk]
  simpa [modifyManifestFn] using
    iterRemove_filter PROJECTS_TO_REMOVE _ hq [] m.files

/-- Content of one file in the modelled filesystem: opaque bytes, the
serialized form of a JSON document (json.dumps is injective on documents,
so the document identifies the bytes), or a zip archive of named entries. -/
inductive Data where
  | blob (id : Nat)
  | jsonDoc (doc : Manifest)
  | zipData (entries : List (String × Data))

/-- Read the file at path q (none = no such file). -/
def getF : List (String × Data) → String → Option Data
  | [], _ => none
  | (p, d) :: rest, q => if p = q then some d else getF rest q

/-- Write d at path p, overwriting an existing file. -/
def setF : List (String × Data) → String → Data → List (String × Data)
  | [], p, d => [(p, d)]
  | (p', d') :: rest, p, d =>
    if p' = p then (p, d) :: rest else (p', d') :: setF rest p d

/-- Whether p lies at or under root (string-prefix test on paths). -/
def pathUnder (root p : String) : Bool :=
  root.data.isPrefixOf p.data

/-- shutil-style recursive removal of root, as TemporaryDirectory performs
on scope exit: every path at or under root disappears. -/
def delTree (fs : List (String × Data)) (root : String) : List (String × Data) :=
  fs.filter (fun pd => !(pathUnder root pd.1))

/-- Remove the single file at path p (the source side of os.replace). -/
def delPath (fs : List (String × Data)) (p : String) : List (String × Data) :=
  fs.filter (fun pd => !(pd.1 == p))

/-- json.load on file content: succeeds exactly on serialized documents. -/
def parseData : Data → Option Manifest
  | .jsonDoc m => some m
  | _ => none

/-- DEFAULT_ZIP (line 23); main uses it unconditionally (line 51). -/
def zipPathS : String := "./build/curseforge/GameNight-3.0.0.zip"

/-- Line 94: zip_path.with_suffix(zip_path.suffix + ".new"); for this
path the ".zip" suffix is replaced by ".zip.new", i.e. ".new" is appended. -/
def newZipPathS : String := zipPathS ++ ".new"

/-- The manifest's fixed name at the extraction root (line 67). -/
def manifestName : String := "manifest.json"

/-- A transform with the document-to-document contract, as CPython runs
it: effect is what the call does to the argument object in place, ret is
the value it returns.  Line 75 calls the transform as a bare statement,
so only effect persists and ret is discarded. -/
structure Transform where
  effect : Manifest → Manifest
  ret : Manifest → Manifest

/-- The built-in modify_manifest: it mutates manifest["files"] in place
(line 45) and returns the very same object (line 47), so its in-place
effect and its return value coincide (modify_manifest_ok relates this to
the literal loop model). -/
def builtinTransform : Transform :=
  { effect := modifyManifestFn, ret := modifyManifestFn }

/-- A transform that honors the spec contract purely: it mutates nothing
and returns a new document with the denylisted entries filtered out. -/
def pureDenylistTransform : Transform :=
  { effect := id, ret := modifyManifestFn }

/-- Line 75: modify_manifest(manifest) as a bare statement - the document
the pipeline goes on to serialize (line 79) is the manifest variable,
i.e. the argument after the transform's in-place effect; the transform's
return value is discarded. -/
def pipelineDocWritten (t : Transform) (m : Manifest) : Manifest :=
  t.effect m

/-- One run's environment: the initial filesystem, the temporary
directory name tempfile chose, the entries the archive extracts to, and
one oracle per operation the code wraps in try/except (false = that
operation raises). -/
structure Env where
  fs0 : List (String × Data)
  tmpdir : String
  extracted : List (String × Data)
  extractOk : Bool
  serializeOk : Bool
  writeOk : Bool
  rezipOk : Bool
  replaceOk : Bool

/-- Absolute path of an extracted file inside the temporary directory. -/
def tmpPath (env : Env) (rel : String) : String :=
  env.tmpdir ++ "/" ++ rel

/-- zf.extractall(tmpdir) (line 62): writes every extracted entry under
the temporary directory.  Returns the filesystem after the writes and
the list of paths written. -/
def extractAll (env : Env) : List (String × Data) × List String :=
  (env.extracted.foldl (fun a pd => setF a (tmpPath env pd.1) pd.2) env.fs0,
   env.extracted.map (fun pd => tmpPath env pd.1))

/-- The working-tree files rezip_directory packs (line 97): everything
currently under the temporary directory. -/
def snapshotTmp (fs : List (String × Data)) (env : Env) : List (String × Data) :=
  fs.filter (fun pd => pathUnder (env.tmpdir ++ "/") pd.1)

/-- Outcome of a run: the process exit status (0 = success), the final
filesystem, and the paths written, in order. -/
structure RunResult where
  exitCode : Nat
  fs : List (String × Data)
  writes : List String

/-- Lines 59-110, the body of the TemporaryDirectory scope, step by step:
extract (exit 3 on a bad zip), read and parse manifest.json (exit 5 when
the file is absent or its bytes are not valid JSON - one except block,
line 71, covers both), apply the transform as a bare call, serialize
(exit 8), write the manifest back (exit 9; open("w") truncates first, so
a failed write leaves partial bytes), build the new zip at the sibling
.new path (exit 11; a failed build leaves a partial file there), then
os.replace the new zip over the original (exit 12; rename is
all-or-nothing). -/
def runBody (t : Transform) (env : Env) : RunResult :=
  let fs1 := (extractAll env).1
  let w1 := (extractAll env).2
  if !env.extractOk then ⟨3, fs1, w1⟩
  else
    match getF fs1 (tmpPath env manifestName) with
    | none => ⟨5, fs1, w1⟩
    | some d =>
      match parseData d with
      | none => ⟨5, fs1, w1⟩
      | some m =>
        let m1 := pipelineDocWritten t m
        if !env.serializeOk then ⟨8, fs1, w1⟩
        else if !env.writeOk then
          ⟨9, setF fs1 (tmpPath env manifestName) (.blob 0),
           w1 ++ [tmpPath env manifestName]⟩
        else
          let fs2 := setF fs1 (tmpPath env manifestName) (.jsonDoc m1)
          let w2 := w1 ++ [tmpPath env manifestName]
          if !env.rezipOk then ⟨11, setF fs2 newZipPathS (.blob 1), w2 ++ [newZipPathS]⟩
          else
            let zipContent := Data.zipData (snapshotTmp fs2 env)
            let fs3 := setF fs2 newZipPathS zipContent
            let w3 := w2 ++ [newZipPathS]
            if !env.replaceOk then ⟨12, fs3, w3⟩
            else ⟨0, setF (delPath fs3 newZipPathS) zipPathS zipContent, w3 ++ [zipPathS]⟩

/-- main (lines 50-111): exit 1 before anything else if the archive is
missing (no temporary directory is created); otherwise run the body
inside the TemporaryDirectory scope, whose exit deletes the working tree
on every path, normal or aborting. -/
def runMain (t : Transform) (env : Env) : RunResult :=
  match getF env.fs0 zipPathS with
  | none => ⟨1, env.fs0, []⟩
  | some _ =>
    let r := runBody t env
    ⟨r.exitCode, delTree r.fs env.tmpdir, r.writes⟩

theorem getF_setF_ne (fs : List (String × Data)) (p q : String) (d : Data) (h : p ≠ q) :
    getF (setF fs p d) q = getF fs q := by
  induction fs with
  | nil => simp [setF, getF, h]
  | cons pd rest ih =>
    obtain ⟨p', d'⟩ := pd
    by_cases hp : p' = p
    · subst hp
      simp [setF, getF, h]
    · simp only [setF, hp, if_false]
      by_cases hq : p' = q
      · simp [getF, hq]
      · simp [getF, hq, ih]

theorem getF_foldl_setF_ne (f : String × Data → String) (q : String) :
    ∀ (l : List (String × Data)) (fs : List (String × Data)),
      (∀ pd ∈ l, f pd ≠ q) →
      getF (l.foldl (fun a pd => setF a (f pd) pd.2) fs) q = getF fs q := by
  intro l
  induction l with
  | nil => intro fs _; rfl
  | cons pd rest ih =>
    intro fs h
    simp only [List.foldl_cons]
    rw [ih _ (fun x hx => h x (List.mem_cons_of_mem pd hx))]
    exact getF_setF_ne fs (f pd) q pd.2 (h pd (List.mem_cons_self pd rest))

theorem getF_filter_keep (keep : String × Data → Bool) (q : String)
    (hk : ∀ d, keep (q, d) = true) :
    ∀ fs, getF (fs.filter keep) q = getF fs q := by
  intro fs
  induction fs with
  | nil => rfl
  | cons pd rest ih =>
    obtain ⟨p, d⟩ := pd
    by_cases hpq : p = q
    · subst hpq
      rw [List.filter_cons, if_pos (hk d)]
      simp [getF]
    · rw [List.filter_cons]
      by_cases hkeep : keep (p, d) = true
      · rw [if_pos hkeep]
        simp [getF, hpq, ih]
      · rw [if_neg hkeep]
        simp [getF, hpq, ih]

theorem isPrefixOf_append_self : ∀ l m : List Char, l.isPrefixOf (l ++ m) = true := by
  intro l m
  induction l with
  | nil => simp [List.isPrefixOf]
  | cons c cs ih => simp [List.isPrefixOf, ih]

theorem pathUnder_append (root s : String) : pathUnder root (root ++ s) = true := by
  unfold pathUnder
  rw [String.data_append]
  exact isPrefixOf_append_self _ _

theorem tmpPath_ne (env : Env) (q : String) (h : pathUnder env.tmpdir q = false) :
    ∀ x, tmpPath env x ≠ q := by
  intro x hx
  have hu : pathUnder env.tmpdir q = true := by
    rw [← hx]
    unfold tmpPath
    rw [String.append_assoc]
    exact pathUnder_append env.tmpdir ("/" ++ x)
  rw [h] at hu
  exact Bool.false_ne_true hu

theorem all_filter_self (q : String × Data → Bool) (fs : List (String × Data)) :
    (fs.filter q).all q = true := by
  rw [List.all_eq_true]
  intro x hx
  exact (List.mem_filter.mp hx).2

theorem newZipPathS_ne : newZipPathS ≠ zipPathS := by decide

/-- On every aborting exit of the body the original archive path was
never written and its content is untouched. -/
theorem runBody_abort (t : Transform) (env : Env)
    (htmp : pathUnder env.tmpdir zipPathS = false) :
    (runBody t env).exitCode ≠ 0 →
      zipPathS ∉ (runBody t env).writes
        ∧ getF (runBody t env).fs zipPathS = getF env.fs0 zipPathS := by
  have hne : ∀ x, tmpPath env x ≠ zipPathS := tmpPath_ne env zipPathS htmp
  have hw1 : zipPathS ∉ (extractAll env).2 := by
    unfold extractAll
    simp only [List.mem_map, not_exists]
    intro pd
    rintro ⟨-, hpd⟩
    exact hne pd.1 hpd
  have hget1 : getF (extractAll env).1 zipPathS = getF env.fs0 zipPathS := by
    unfold extractAll
    exact getF_foldl_setF_ne (fun pd => tmpPath env pd.1) zipPathS env.extracted env.fs0
      (fun pd _ => hne pd.1)
  have hman : tmpPath env manifestName ≠ zipPathS := hne manifestName
  have hw2 : zipPathS ∉ (extractAll env).2 ++ [tmpPath env manifestName] := by
    simp only [List.mem_append, List.mem_singleton]
    rintro (h | h)
    · exact hw1 h
    · exact hman h.symm
  have hw3 : zipPathS ∉ ((extractAll env).2 ++ [tmpPath env manifestName]) ++ [newZipPathS] := by
    simp only [List.mem_append, List.mem_singleton]
    rintro ((h | h) | h)
    · exact hw1 h
    · exact hman h.symm
    · exact newZipPathS_ne h.symm
  simp only [runBody]
  split
  · exact fun _ => ⟨hw1, hget1⟩
  · split
    · exact fun _ => ⟨hw1, hget1⟩
    · split
      · exact fun _ => ⟨hw1, hget1⟩
      · split
        · exact fun _ => ⟨hw1, hget1⟩
        · split
          · exact fun _ => ⟨hw2, by rw [getF_setF_ne _ _ _ _ hman]; exact hget1⟩
          · split
            · exact fun _ => ⟨by simpa using hw3,
                by rw [getF_setF_ne _ _ _ _ newZipPathS_ne, getF_setF_ne _ _ _ _ hman]
                   exact hget1⟩
            · split
              · exact fun _ => ⟨by simpa using hw3,
                  by rw [getF_setF_ne _ _ _ _ newZipPathS_ne, getF_setF_ne _ _ _ _ hman]
                     exact hget1⟩
              · exact fun h => absurd rfl h

/-- No run, aborting or successful, writes the original archive path
more than once. -/
theorem runBody_count (t : Transform) (env : Env)
    (htmp : pathUnder env.tmpdir zipPathS = false) :
    (runBody t env).writes.count zipPathS ≤ 1 := by
  have hne : ∀ x, tmpPath env x ≠ zipPathS := tmpPath_ne env zipPathS htmp
  have hw1 : zipPathS ∉ (extractAll env).2 := by
    unfold extractAll
    simp only [List.mem_map, not_exists]
    intro pd
    rintro ⟨-, hpd⟩
    exact hne pd.1 hpd
  have hman : tmpPath env manifestName ≠ zipPathS := hne manifestName
  have hw2 : zipPathS ∉ (extractAll env).2 ++ [tmpPath env manifestName] := by
    simp only [List.mem_append, List.mem_singleton]
    rintro (h | h)
    · exact hw1 h
    · exact hman h.symm
  have hw3 : zipPathS ∉ ((extractAll env).2 ++ [tmpPath env manifestName]) ++ [newZipPathS] := by
    simp only [List.mem_append, List.mem_singleton]
    rintro ((h | h) | h)
    · exact hw1 h
    · exact hman h.symm
    · exact newZipPathS_ne h.symm
  have c1 : ((extractAll env).2).count zipPathS = 0 := List.count_eq_zero.mpr hw1
  have c2 : ((extractAll env).2 ++ [tmpPath env manifestName]).count zipPathS = 0 :=
    List.count_eq_zero.mpr hw2
  have c3 : (((extractAll env).2 ++ [tmpPath env manifestName]) ++ [newZipPathS]).count
      zipPathS = 0 := List.count_eq_zero.mpr hw3
  simp only [runBody]
  split
  · exact le_trans (le_of_eq c1) (Nat.zero_le 1)
  · split
    · exact le_trans (le_of_eq c1) (Nat.zero_le 1)
    · split
      · exact le_trans (le_of_eq c1) (Nat.zero_le 1)
      · split
        · exact le_trans (le_of_eq c1) (Nat.zero_le 1)
        · split
          · exact le_trans (le_of_eq c2) (Nat.zero_le 1)
          · split
            · exact le_trans (le_of_eq c3) (Nat.zero_le 1)
            · split
              · exact le_trans (le_of_eq c3) (Nat.zero_le 1)
              · show ((((extractAll env).2 ++ [tmpPath env manifestName]) ++ [newZipPathS])
                    ++ [zipPathS]).count zipPathS ≤ 1
                rw [List.count_append, c3]
                simp [List.count_cons]

/-- Claim C2: the new archive is built at the sibling .new path, never at
the original path; the original archive path is written at most once per
run (by the final rename only); and on every non-zero exit the original
path was never written and its bytes are exactly the initial ones. -/
theorem claim2_swap_atomicity (t : Transform) (env : Env)
    (htmp : pathUnder env.tmpdir zipPathS = false) :
    newZipPathS = zipPathS ++ ".new"
      ∧ (runMain t env).writes.count zipPathS ≤ 1
      ∧ ((runMain t env).exitCode ≠ 0 →
          zipPathS ∉ (runMain t env).writes
            ∧ getF (runMain t env).fs zipPathS = getF env.fs0 zipPathS) := by
  refine ⟨rfl, ?_, ?_⟩
  · unfold runMain
    cases hz : getF env.fs0 zipPathS with
    | none => exact Nat.zero_le 1
    | some d => exact runBody_count t env htmp
  · unfold runMain
    cases hz : getF env.fs0 zipPathS with
    | none => exact fun _ => ⟨List.not_mem_nil _, hz⟩
    | some d =>
      intro h
      obtain ⟨hnw, hfs⟩ := runBody_abort t env htmp h
      refine ⟨hnw, ?_⟩
      show getF (delTree (runBody t env).fs env.tmpdir) zipPathS = some d
      unfold delTree
      rw [getF_filter_keep _ _ (fun dd => by show (!pathUnder env.tmpdir zipPathS) = true; rw [htmp]; rfl)]
      exact hfs.trans hz

/-- Claim C9: whenever the run reaches the point of creating the
temporary working directory (the archive exists), the final filesystem
holds no path under that directory - the TemporaryDirectory scope
deletes the working tree on every exit path. -/
theorem claim9_tmpdir_released (t : Transform) (env : Env)
    (h : (getF env.fs0 zipPathS).isSome = true) :
    (runMain t env).fs.all (fun pd => !(pathUnder env.tmpdir pd.1)) = true := by
  unfold runMain
  cases hz : getF env.fs0 zipPathS with
  | none => rw [hz] at h; simp at h
  | some d =>
    simp only []
    exact all_filter_self _ _

/-- A manifest whose single files entry is denylisted. -/
def manifest890 : Manifest := ⟨[entry890], []⟩

/-- A run in which every step succeeds: the archive exists, extraction
yields a parseable manifest at the root, and no operation raises. -/
def envOk : Env :=
  { fs0 := [(zipPathS, .blob 7), ("./other.txt", .blob 2)]
    tmpdir := "/tmp/fix-curseforge-run0"
    extracted := [(manifestName, .jsonDoc ⟨[entry890, entry2], []⟩)]
    extractOk := true, serializeOk := true, writeOk := true
    rezipOk := true, replaceOk := true }

/-- The archive is absent: exit 1 before the working tree exists. -/
def envNotFound : Env := { envOk with fs0 := [] }

/-- The archive bytes are not a valid zip: exit 3. -/
def envCorrupt : Env := { envOk with extractOk := false }

/-- The extracted tree has no manifest.json: json.load raises
FileNotFoundError, caught by the same except block as a parse error. -/
def envMissingManifest : Env := { envOk with extracted := [("modlist.html", .blob 3)] }

/-- manifest.json exists but its bytes are not valid JSON. -/
def envInvalidManifest : Env := { envOk with extracted := [(manifestName, .blob 4)] }

/-- json.dumps raises on the transformed document: exit 8. -/
def envSerializeFail : Env := { envOk with serializeOk := false }

/-- Writing the manifest back raises: exit 9. -/
def envWriteFail : Env := { envOk with writeOk := false }

/-- Building the new zip raises: exit 11. -/
def envRezipFail : Env := { envOk with rezipOk := false }

/-- os.replace raises: exit 12. -/
def envReplaceFail : Env := { envOk with replaceOk := false }

/-- Witness for claim2_swap_atomicity at a concrete aborting run (the
archive rebuild fails): the hypothesis that the temporary directory does
not lie over the archive path holds for the real names involved. -/
theorem claim2_witness :
    zipPathS ∉ (runMain builtinTransform envRezipFail).writes
      ∧ getF (runMain builtinTransform envRezipFail).fs zipPathS
          = getF envRezipFail.fs0 zipPathS :=
  (claim2_swap_atomicity builtinTransform envRezipFail (by decide)).2.2 (by decide)

/-- Witness for claim9_tmpdir_released at a concrete successful run. -/
theorem claim9_witness :
    (runMain builtinTransform envOk).fs.all
      (fun pd => !(pathUnder envOk.tmpdir pd.1)) = true :=
  claim9_tmpdir_released builtinTransform envOk (by decide)

/-- The spec's eight error kinds. -/
inductive ErrKind where
  | archiveNotFound
  | corruptArchive
  | missingManifest
  | invalidManifest
  | serializationError
  | manifestWriteError
  | archiveBuildError
  | swapError
deriving DecidableEq

/-- The exit status each kind produces, read off the sys.exit calls of
main: 1 (line 54), 3 (line 65), 5 (line 73, one except block for both a
missing manifest file and unparseable manifest bytes), 8 (line 82),
9 (line 91), 11 (line 100), 12 (line 108). -/
def exitCodeOf : ErrKind → Nat
  | .archiveNotFound => 1
  | .corruptArchive => 3
  | .missingManifest => 5
  | .invalidManifest => 5
  | .serializationError => 8
  | .manifestWriteError => 9
  | .archiveBuildError => 11
  | .swapError => 12

/-- Claim C3 is false on the code: a missing manifest file and manifest
bytes that are not valid JSON are caught by the same except block
(line 71) and terminate with the same exit status 5, so the eight exit
statuses are not pairwise distinct. -/
theorem claim3_counterexample :
    (runMain builtinTransform envMissingManifest).exitCode = 5
      ∧ (runMain builtinTransform envInvalidManifest).exitCode = 5
      ∧ (runMain builtinTransform envMissingManifest).exitCode
          = (runMain builtinTransform envInvalidManifest).exitCode :=
  ⟨rfl, rfl, rfl⟩

/-- Claim C3 (amended): each of the eight error kinds terminates the
process with a non-zero exit status, each is realized by a concrete run,
and the statuses are pairwise distinct except that MissingManifest and
InvalidManifest share status 5. -/
theorem claim3_amended :
    (∀ k : ErrKind, exitCodeOf k ≠ 0)
      ∧ (∀ k₁ k₂ : ErrKind, exitCodeOf k₁ = exitCodeOf k₂ →
          k₁ = k₂ ∨ (k₁ = .missingManifest ∧ k₂ = .invalidManifest)
            ∨ (k₁ = .invalidManifest ∧ k₂ = .missingManifest))
      ∧ (runMain builtinTransform envNotFound).exitCode = exitCodeOf .archiveNotFound
      ∧ (runMain builtinTransform envCorrupt).exitCode = exitCodeOf .corruptArchive
      ∧ (runMain builtinTransform envMissingManifest).exitCode = exitCodeOf .missingManifest
      ∧ (runMain builtinTransform envInvalidManifest).exitCode = exitCodeOf .invalidManifest
      ∧ (runMain builtinTransform envSerializeFail).exitCode = exitCodeOf .serializationError
      ∧ (runMain builtinTransform envWriteFail).exitCode = exitCodeOf .manifestWriteError
      ∧ (runMain builtinTransform envRezipFail).exitCode = exitCodeOf .archiveBuildError
      ∧ (runMain builtinTransform envReplaceFail).exitCode = exitCodeOf .swapError := by
  refine ⟨fun k => by cases k <;> decide,
    fun k₁ k₂ h => by cases k₁ <;> cases k₂ <;> simp_all [exitCodeOf],
    rfl, rfl, rfl, rfl, rfl, rfl, rfl, rfl⟩

/-- Witness for claim3_amended: its collision clause applied at the one
actual collision, with the hypothesis discharged by computation. -/
theorem claim3_witness :
    ErrKind.missingManifest = ErrKind.invalidManifest
      ∨ (ErrKind.missingManifest = ErrKind.missingManifest
          ∧ ErrKind.invalidManifest = ErrKind.invalidManifest)
      ∨ (ErrKind.missingManifest = ErrKind.invalidManifest
          ∧ ErrKind.invalidManifest = ErrKind.missingManifest) :=
  claim3_amended.2.1 .missingManifest .invalidManifest rfl

/-- The successful run whose extracted manifest holds one denylisted
entry, used to exhibit the discarded transform return value. -/
def envPure : Env := { envOk with extracted := [(manifestName, .jsonDoc manifest890)] }

/-- Claim C4 fails on the code: line 75 calls modify_manifest(manifest)
as a bare statement, discarding the returned document, so the document
the pipeline serializes is the argument after in-place mutation, not the
returned one.  A conforming transform that mutates nothing and returns a
new filtered document (pureDenylistTransform, exactly the
document-to-document contract of the module docstring) has no effect:
the run succeeds and the swapped-in archive still holds the original
manifest with its denylisted entry, although the transform returned the
filtered document.  The built-in transform masks the bug only because it
mutates in place and returns the same object. -/
theorem claim4_return_discarded :
    pipelineDocWritten pureDenylistTransform manifest890 = manifest890
      ∧ pureDenylistTransform.ret manifest890 ≠ manifest890
      ∧ (runMain pureDenylistTransform envPure).exitCode = 0
      ∧ getF (runMain pureDenylistTransform envPure).fs zipPathS
          = some (.zipData [(tmpPath envPure manifestName, .jsonDoc manifest890)])
      ∧ pipelineDocWritten builtinTransform manifest890
          = builtinTransform.ret manifest890 :=
  ⟨rfl, by decide, rfl, rfl, rfl⟩

/-- A directory tree: named subdirectories and named files (file content
stands in as an opaque byte identifier). -/
inductive FTree where
  | node (dirs : List (String × FTree)) (files : List (String × Nat))

mutual

/-- os.walk(src_dir) driving zf.write (lines 32-37): the walk yields the
current directory first - its files, each written under the POSIX path of
the file relative to the source root - then descends into each
subdirectory in order, prefixing the directory name and a slash onto the
paths of what it finds, which is exactly what
fpath.relative_to(src_dir) followed by as_posix computes. -/
def walkTree : FTree → List (String × Nat)
  | .node dirs files => files ++ walkDirs dirs

/-- The entries contributed by a list of subdirectories, in order. -/
def walkDirs : List (String × FTree) → List (String × Nat)
  | [] => []
  | (d, t) :: rest =>
    (walkTree t).map (fun e => (d ++ "/" ++ e.1, e.2)) ++ walkDirs rest

end

/-- rezip_directory (lines 28-37): the archive written at dst_zip, as the
ordered collection of (entry name, content) pairs produced by walking
src_dir; every file visited is written, nothing else. -/
def rezip_directory (src : FTree) : List (String × Nat) :=
  walkTree src

/-- A usable file or directory name: non-empty, no path separator. -/
def validName (s : String) : Bool :=
  (!(s == "")) && !(s.data.contains '/')

mutual

/-- Well-formedness of a directory tree as a real filesystem guarantees
it: within one directory all names (directories and files together) are
distinct and valid, recursively. -/
def wfTree : FTree → Bool
  | .node dirs files =>
    decide ((dirs.map Prod.fst ++ files.map Prod.fst).Nodup)
      && (dirs.map Prod.fst ++ files.map Prod.fst).all validName
      && wfDirs dirs

/-- Well-formedness of each subdirectory in a list. -/
def wfDirs : List (String × FTree) → Bool
  | [] => true
  | (_, t) :: rest => wfTree t && wfDirs rest

end

/-- Modelled from the spec's words ("exactly the files found by a full
recursive walk of the source directory, with entry names equal to the
POSIX-style path of each file relative to the source root"): the file
reachable from the root along a path of directory names, its POSIX path,
and its content. -/
inductive InTree : FTree → String → Nat → Prop where
  | here {dirs : List (String × FTree)} {files : List (String × Nat)}
      {name : String} {c : Nat} :
      (name, c) ∈ files → InTree (.node dirs files) name c
  | there {dirs : List (String × FTree)} {files : List (String × Nat)}
      {d : String} {t : FTree} {p : String} {c : Nat} :
      (d, t) ∈ dirs → InTree t p c → InTree (.node dirs files) (d ++ "/" ++ p) c

theorem append_slash_inj :
    ∀ (l1 : List Char) (r1 : List Char) (l2 : List Char) (r2 : List Char),
      '/' ∉ l1 → '/' ∉ l2 → l1 ++ '/' :: r1 = l2 ++ '/' :: r2 →
      l1 = l2 ∧ r1 = r2 := by
  intro l1
  induction l1 with
  | nil =>
    intro r1 l2 r2 _ h2 heq
    cases l2 with
    | nil => simpa using heq
    | cons c cs =>
      simp only [List.nil_append, List.cons_append, List.cons.injEq] at heq
      obtain ⟨hc, -⟩ := heq
      subst hc
      exact (h2 (List.mem_cons_self _ _)).elim
  | cons c cs ih =>
    intro r1 l2 r2 h1 h2 heq
    cases l2 with
    | nil =>
      simp only [List.nil_append, List.cons_append, List.cons.injEq] at heq
      obtain ⟨hc, -⟩ := heq
      subst hc
      exact (h1 (List.mem_cons_self _ _)).elim
    | cons c2 cs2 =>
      simp only [List.cons_append, List.cons.injEq] at heq
      obtain ⟨hc, htl⟩ := heq
      obtain ⟨hl, hr⟩ := ih r1 cs2 r2
        (fun hx => h1 (List.mem_cons_of_mem c hx))
        (fun hx => h2 (List.mem_cons_of_mem c2 hx)) htl
      exact ⟨by rw [hc, hl], hr⟩

theorem slash_split_inj (d1 p1 d2 p2 : String)
    (h1 : ¬ '/' ∈ d1.data) (h2 : ¬ '/' ∈ d2.data)
    (heq : d1 ++ "/" ++ p1 = d2 ++ "/" ++ p2) : d1 = d2 ∧ p1 = p2 := by
  have hdata : d1.data ++ '/' :: p1.data = d2.data ++ '/' :: p2.data := by
    have := congrArg String.data heq
    simpa [String.data_append] using this
  obtain ⟨hl, hr⟩ := append_slash_inj d1.data p1.data d2.data p2.data h1 h2 hdata
  exact ⟨String.ext hl, String.ext hr⟩

theorem prefix_slash_inj (d : String) : Function.Injective (fun p => d ++ "/" ++ p) := by
  intro p1 p2 h
  have hdata : d.data ++ '/' :: p1.data = d.data ++ '/' :: p2.data := by
    have := congrArg String.data h
    simpa [String.data_append] using this
  have := List.append_cancel_left hdata
  exact String.ext (by simpa using this)

theorem walkTree_mem :
    ∀ t : FTree, ∀ p c, ((p, c) ∈ walkTree t ↔ InTree t p c) := by
  apply walkTree.induct
    (fun t => ∀ p c, ((p, c) ∈ walkTree t ↔ InTree t p c))
    (fun dirs => ∀ p c, ((p, c) ∈ walkDirs dirs ↔
      ∃ d t' p', (d, t') ∈ dirs ∧ p = d ++ "/" ++ p' ∧ InTree t' p' c))
  · intro dirs files ih p c
    rw [walkTree]
    constructor
    · intro hm
      rcases List.mem_append.mp hm with hf | hd
      · exact InTree.here hf
      · rcases (ih p c).mp hd with ⟨d, t', p', hdt, hp, hin⟩
        rw [hp]
        exact InTree.there hdt hin
    · intro hin
      cases hin with
      | here hf => exact List.mem_append.mpr (Or.inl hf)
      | there hdt hin =>
        exact List.mem_append.mpr (Or.inr ((ih _ c).mpr ⟨_, _, _, hdt, rfl, hin⟩))
  · intro p c
    rw [walkDirs]
    simp
  · intro d t rest ih1 ih2 p c
    rw [walkDirs]
    constructor
    · intro hm
      rcases List.mem_append.mp hm with hblk | hrest
      · rcases List.mem_map.mp hblk with ⟨⟨ep, ec⟩, he, heq⟩
        cases heq
        exact ⟨d, t, ep, List.mem_cons_self _ _, rfl, (ih1 ep ec).mp he⟩
      · rcases (ih2 p c).mp hrest with ⟨d', t', p', hdt, hp, hin⟩
        exact ⟨d', t', p', List.mem_cons_of_mem _ hdt, hp, hin⟩
    · rintro ⟨d', t', p', hdt, hp, hin⟩
      rcases List.mem_cons.mp hdt with hhead | htail
      · rw [Prod.mk.injEq] at hhead
        obtain ⟨hd, ht⟩ := hhead
        subst hd
        subst ht
        subst hp
        exact List.mem_append.mpr
          (Or.inl (List.mem_map.mpr ⟨(p', c), (ih1 p' c).mpr hin, rfl⟩))
      · exact List.mem_append.mpr (Or.inr ((ih2 p c).mpr ⟨d', t', p', htail, hp, hin⟩))

theorem validName_no_slash {s : String} (h : validName s = true) : '/' ∉ s.data := by
  simp [validName] at h
  exact h.2

theorem walkTree_nodup :
    ∀ t : FTree, wfTree t = true → ((walkTree t).map Prod.fst).Nodup := by
  apply walkTree.induct
    (fun t => wfTree t = true → ((walkTree t).map Prod.fst).Nodup)
    (fun dirs => (dirs.map Prod.fst).Nodup →
      (∀ n ∈ dirs.map Prod.fst, validName n = true) →
      wfDirs dirs = true →
      ((walkDirs dirs).map Prod.fst).Nodup
        ∧ ∀ q ∈ (walkDirs dirs).map Prod.fst,
            ∃ dn p', dn ∈ dirs.map Prod.fst ∧ q = dn ++ "/" ++ p')
  · -- a directory node
    intro dirs files ih hw
    rw [wfTree] at hw
    simp only [Bool.and_eq_true, decide_eq_true_eq, List.all_eq_true] at hw
    obtain ⟨⟨hnd, hval⟩, hwfd⟩ := hw
    obtain ⟨hnd_dirs, hnd_files, -⟩ := List.nodup_append.mp hnd
    obtain ⟨hwalk_nd, hchar⟩ := ih hnd_dirs
      (fun n hn => hval n (List.mem_append.mpr (Or.inl hn))) hwfd
    rw [walkTree, List.map_append]
    refine List.nodup_append.mpr ⟨hnd_files, hwalk_nd, ?_⟩
    intro a ha hwa
    rcases hchar a hwa with ⟨dn, p', -, hq⟩
    have hvalid : validName a = true := hval a (List.mem_append.mpr (Or.inr ha))
    have hnos : '/' ∉ a.data := validName_no_slash hvalid
    apply hnos
    rw [hq, String.data_append, String.data_append]
    exact List.mem_append.mpr (Or.inl (List.mem_append.mpr (Or.inr (by simp))))
  · -- no subdirectories
    intro _ _ _
    exact ⟨by rw [walkDirs]; simp, by rw [walkDirs]; simp⟩
  · -- one subdirectory block followed by the rest
    intro d t rest ih1 ih2 hnd hval hwfd
    rw [List.map_cons, List.nodup_cons] at hnd
    obtain ⟨hd_notin, hnd_rest⟩ := hnd
    rw [wfDirs, Bool.and_eq_true] at hwfd
    obtain ⟨hwt, hwrest⟩ := hwfd
    have hvald : validName d = true := hval d (by simp)
    obtain ⟨hnd_walk_rest, hchar_rest⟩ := ih2 hnd_rest
      (fun n hn => hval n (List.mem_cons_of_mem _ hn)) hwrest
    have hblock : ((walkTree t).map (fun e => (d ++ "/" ++ e.1, e.2))).map Prod.fst
        = ((walkTree t).map Prod.fst).map (fun s => d ++ "/" ++ s) := by
      rw [List.map_map, List.map_map]
      rfl
    constructor
    · rw [walkDirs, List.map_append, hblock]
      refine List.nodup_append.mpr ⟨(ih1 hwt).map (prefix_slash_inj d), hnd_walk_rest, ?_⟩
      intro a ha hrest
      rcases List.mem_map.mp ha with ⟨x, -, hx⟩
      rcases hchar_rest a hrest with ⟨dn, p', hdn, hq⟩
      have hvaldn : validName dn = true := hval dn (List.mem_cons_of_mem _ hdn)
      have : d = dn := (slash_split_inj d x dn p'
        (validName_no_slash hvald) (validName_no_slash hvaldn) (by rw [hx, hq])).1
      exact hd_notin (this ▸ hdn)
    · intro q hq
      rw [walkDirs, List.map_append, hblock] at hq
      rcases List.mem_append.mp hq with hb | hr
      · rcases List.mem_map.mp hb with ⟨x, -, hx⟩
        exact ⟨d, x, by simp, hx.symm⟩
      · rcases hchar_rest q hr with ⟨dn, p', hdn, hqq⟩
        exact ⟨dn, p', List.mem_cons_of_mem _ hdn, hqq⟩

/-- Claim C8: for a well-formed source directory the archive written by
rezip_directory has pairwise-distinct entry names (exactly one entry per
file, no more, no fewer) and its entries are exactly the pairs of
POSIX-style relative path and content of the files a full recursive walk
of the directory finds. -/
theorem claim8_archive_exact (src : FTree) (h : wfTree src = true) :
    ((rezip_directory src).map Prod.fst).Nodup
      ∧ (∀ p c, ((p, c) ∈ rezip_directory src ↔ InTree src p c)) :=
  ⟨walkTree_nodup src h, walkTree_mem src⟩

/-- A small concrete tree: a root file and a subdirectory with the
rewritten manifest. -/
def tree0 : FTree :=
  .node [("overrides", .node [] [("mod.jar", 11)])] [("manifest.json", 5)]

/-- Witness for claim8_archive_exact: on tree0 (well-formed by
computation) the archive's names are distinct and the file
overrides/mod.jar with content 11, an entry of the computed archive, is
indeed reachable in the tree. -/
theorem claim8_witness :
    ((rezip_directory tree0).map Prod.fst).Nodup ∧ InTree tree0 "overrides/mod.jar" 11 :=
  ⟨(claim8_archive_exact tree0 (by decide)).1,
   ((claim8_archive_exact tree0 (by decide)).2 "overrides/mod.jar" 11).mp (by decide)⟩
